import Mathlib

/-!
Verification of the private-transaction stores (`VerificationStore`,
`SigningStore`) from `src/ethcore/src/private_transactions/private_transactions.rs`.

Hashes (H256), addresses, nonces (U256) and signatures are modelled as `Nat`;
byte strings as `List Nat`.  `HashMap` is modelled as an association list with
insert-replace semantics.  The generic transaction pool, the details provider
and signed-transaction construction are external collaborators (not in the
repository sources) and are modelled from the spec, each marked as such.
-/

namespace Parity

/-- Maximum length for private transactions queues (from the source). -/
def MAX_QUEUE_LEN : Nat := 8312

/-- Lookup in an association-list map (first entry with the key), as
`HashMap::get`. -/
def mapGet {α : Type} (m : List (Nat × α)) (k : Nat) : Option α :=
  (m.find? (fun p => p.1 == k)).map Prod.snd

/-- Deletion from an association-list map, as `HashMap::remove`. -/
def mapRemove {α : Type} (m : List (Nat × α)) (k : Nat) : List (Nat × α) :=
  m.filter (fun p => p.1 != k)

/-- Insert-replace into an association-list map, as `HashMap::insert`. -/
def mapInsert {α : Type} (m : List (Nat × α)) (k : Nat) (v : α) : List (Nat × α) :=
  (k, v) :: mapRemove m k

/-- In-place update of the entry at a key, as mutation through
`HashMap::get_mut`: every entry at a different key keeps its position and
value. -/
def mapUpdate {α : Type} (m : List (Nat × α)) (k : Nat) (v : α) : List (Nat × α) :=
  m.map (fun p => if p.1 == k then (k, v) else p)

/-- Errors of the private-transaction layer (from the source). -/
inductive PrivateTransactionError where
  | QueueIsFull
  | PrivateTransactionAlreadyImported
  | PrivateTransactionNotFound
deriving DecidableEq, Repr

/-- The error type crossing the store boundary: the layer's own errors, plus
opaque errors (identified by a code) from transaction signature verification
and from the underlying pool's admission logic, propagated verbatim. -/
inductive Error where
  | Private (e : PrivateTransactionError)
  | Transaction (code : Nat)
  | Pool (code : Nat)
deriving DecidableEq, Repr

/-- Modelled from the spec: a raw transaction, before signature verification.
`hash` is the transaction's own hash, `sender` its sender address;
`verifyError` is the outcome of signature/format verification (`none` means
it verifies). -/
structure UnverifiedTransaction where
  hash : Nat
  sender : Nat
  verifyError : Option Nat
deriving DecidableEq, Repr

/-- A signature-verified transaction, exposing its hash and sender. -/
structure SignedTransaction where
  hash : Nat
  sender : Nat
deriving DecidableEq, Repr

/-- Modelled from the spec: `SignedTransaction::new` transitions a raw
transaction into a signature-verified form, failing with the verification
error when verification fails. -/
def SignedTransaction.new (t : UnverifiedTransaction) : Except Error SignedTransaction :=
  match t.verifyError with
  | some code => Except.error (Error.Transaction code)
  | none => Except.ok { hash := t.hash, sender := t.sender }

/-- Transaction origin classification passed to the pool. -/
inductive TransactionOrigin where
  | Local
  | External
deriving DecidableEq, Repr

/-- Reason tag given to the pool when removing a transaction. -/
inductive RemovalReason where
  | Invalid
  | Canceled
deriving DecidableEq, Repr

/-- Modelled from the spec: the pool-side admission verdict carried by the
details provider; `none` accepts, `some code` rejects with an opaque
pool-specific error. -/
structure TransactionQueueDetailsProvider where
  admission : SignedTransaction → Option Nat

/-- Modelled from the spec: the generic ordered transaction pool. `txs` is its
ranked candidate list (best first, the pool's own opaque ordering policy);
`removals` records the removal instructions the store issued to the pool. -/
structure TransactionQueue where
  txs : List SignedTransaction
  removals : List (Nat × RemovalReason)
deriving DecidableEq, Repr

/-- The empty pool. -/
def TransactionQueue.default : TransactionQueue :=
  { txs := [], removals := [] }

/-- Modelled from the spec: pool admission — may reject for pool-specific
reasons (opaque, decided by the details provider), which are propagated
verbatim; on acceptance the transaction joins the pool. -/
def TransactionQueue.add (q : TransactionQueue) (tx : SignedTransaction)
    (origin : TransactionOrigin) (insertion_time : Nat) (condition : Option Nat)
    (details_provider : TransactionQueueDetailsProvider) : Except Error TransactionQueue :=
  match details_provider.admission tx with
  | some code => Except.error (Error.Pool code)
  | none => Except.ok { q with txs := q.txs ++ [tx] }

/-- Modelled from the spec: the pool's best-ranked ready set by its own
ordering policy; side-effect-free. -/
def TransactionQueue.top_transactions (q : TransactionQueue) : List SignedTransaction :=
  q.txs

/-- Modelled from the spec: pool removal by hash with a nonce oracle for
cascading invalidation (the cascade itself is opaque to this layer); the
issued instruction is recorded in `removals`. -/
def TransactionQueue.remove (q : TransactionQueue) (hash : Nat)
    (fetch_nonce : Nat → Nat) (reason : RemovalReason) : TransactionQueue :=
  { txs := q.txs.filter (fun t => t.hash != hash),
    removals := q.removals ++ [(hash, reason)] }

/-- Descriptor for a private transaction stored in queue for verification. -/
structure PrivateTransactionDesc where
  private_hash : Nat
  contract : Nat
  validator_account : Nat
deriving DecidableEq, Repr

/-- Storage for private transactions for verification: descriptors keyed by
the hash of the original transaction, plus the queue of transactions. -/
structure VerificationStore where
  descriptors : List (Nat × PrivateTransactionDesc)
  transactions : TransactionQueue

/-- Rust `VerificationStore::new`. -/
def VerificationStore.new : VerificationStore :=
  { transactions := TransactionQueue.default, descriptors := [] }

/-- Rust `VerificationStore::add_transaction`, returning the `Result` together with
the store after the call (the Rust method mutates `self`). -/
def VerificationStore.add_transaction (s : VerificationStore)
    (transaction : UnverifiedTransaction) (contract : Nat) (validator_account : Nat)
    (private_hash : Nat) (details_provider : TransactionQueueDetailsProvider)
    (insertion_time : Nat) : Except Error Unit × VerificationStore :=
  if s.descriptors.length > MAX_QUEUE_LEN then
    (Except.error (Error.Private PrivateTransactionError.QueueIsFull), s)
  else if (mapGet s.descriptors transaction.hash).isSome then
    (Except.error (Error.Private PrivateTransactionError.PrivateTransactionAlreadyImported), s)
  else
    match SignedTransaction.new transaction with
    | Except.error e => (Except.error e, s)
    | Except.ok signed_transaction =>
      match s.transactions.add signed_transaction TransactionOrigin.External
          insertion_time none details_provider with
      | Except.ok q =>
        (Except.ok (),
          { descriptors := mapInsert s.descriptors transaction.hash
              { private_hash := private_hash, contract := contract,
                validator_account := validator_account },
            transactions := q })
      | Except.error e => (Except.error e, s)

/-- The comparison passed to the sort in `ready_transactions`:
`a.sender().cmp(&b.sender())`. -/
def senderLE (a b : SignedTransaction) : Bool :=
  decide (a.sender ≤ b.sender)

/-- Helper for `dedupBySender`: `a` is the first element of the current run of
equal senders (the retained representative); later elements of the run are
dropped. -/
def dedupBySenderAux (a : SignedTransaction) : List SignedTransaction → List SignedTransaction
  | [] => [a]
  | b :: rest =>
    if a.sender == b.sender then dedupBySenderAux a rest
    else a :: dedupBySenderAux b rest

/-- Rust `Vec::dedup_by` with the predicate comparing senders: removes all but the
first of consecutive elements with equal sender. -/
def dedupBySender : List SignedTransaction → List SignedTransaction
  | [] => []
  | a :: rest => dedupBySenderAux a rest

/-- Rust `VerificationStore::ready_transactions`: the pool's top transactions,
stably sorted by sender, then deduplicated by consecutive equal senders.
(Pure by construction: it takes the store and returns only the list.) -/
def VerificationStore.ready_transactions (s : VerificationStore) : List SignedTransaction :=
  dedupBySender ((s.transactions.top_transactions).mergeSort senderLE)

/-- Rust `VerificationStore::private_transaction_descriptor`. -/
def VerificationStore.private_transaction_descriptor (s : VerificationStore)
    (transaction_hash : Nat) : Except Error PrivateTransactionDesc :=
  match mapGet s.descriptors transaction_hash with
  | some d => Except.ok d
  | none => Except.error (Error.Private PrivateTransactionError.PrivateTransactionNotFound)

/-- Rust `VerificationStore::remove_private_transaction`. -/
def VerificationStore.remove_private_transaction (s : VerificationStore)
    (transaction_hash : Nat) (fetch_nonce : Nat → Nat) : VerificationStore :=
  { descriptors := mapRemove s.descriptors transaction_hash,
    transactions := s.transactions.remove transaction_hash fetch_nonce RemovalReason.Invalid }

/-- Descriptor for a private transaction stored in queue for signing. -/
structure PrivateTransactionSigningDesc where
  original_transaction : SignedTransaction
  validators : List Nat
  received_signatures : List Nat
  state : List Nat
deriving DecidableEq, Repr

/-- Storage for private transactions for signing, keyed by private hash. -/
structure SigningStore where
  transactions : List (Nat × PrivateTransactionSigningDesc)

/-- Rust `SigningStore::new`. -/
def SigningStore.new : SigningStore :=
  { transactions := [] }

/-- Rust `SigningStore::add_transaction`. -/
def SigningStore.add_transaction (s : SigningStore) (private_hash : Nat)
    (transaction : SignedTransaction) (validators : List Nat)
    (state : List Nat) : Except Error Unit × SigningStore :=
  if s.transactions.length > MAX_QUEUE_LEN then
    (Except.error (Error.Private PrivateTransactionError.QueueIsFull), s)
  else
    (Except.ok (),
      { transactions := mapInsert s.transactions private_hash
          { original_transaction := transaction, validators := validators,
            received_signatures := [], state := state } })

/-- Rust `SigningStore::get`: a value copy of the descriptor, if present. -/
def SigningStore.get (s : SigningStore) (private_hash : Nat) :
    Option PrivateTransactionSigningDesc :=
  mapGet s.transactions private_hash

/-- Rust `SigningStore::remove`: idempotent delete, always `Ok`. -/
def SigningStore.remove (s : SigningStore) (private_hash : Nat) :
    Except Error Unit × SigningStore :=
  (Except.ok (), { transactions := mapRemove s.transactions private_hash })

/-- Rust `SigningStore::add_signature`: appends the signature to the entry's
collected signatures unless already present; fails when the entry is
missing. -/
def SigningStore.add_signature (s : SigningStore) (private_hash : Nat)
    (signature : Nat) : Except Error Unit × SigningStore :=
  match mapGet s.transactions private_hash with
  | none => (Except.error (Error.Private PrivateTransactionError.PrivateTransactionNotFound), s)
  | some desc =>
    let desc' :=
      if desc.received_signatures.contains signature then desc
      else { desc with received_signatures := desc.received_signatures ++ [signature] }
    (Except.ok (), { transactions := mapUpdate s.transactions private_hash desc' })

/-- States of a `VerificationStore` reachable from `new` by any sequence of
store operations (each `add_transaction` step covers both its success and its
failure outcome, since the resulting store is taken in either case). -/
inductive ReachableV : VerificationStore → Prop where
  | new : ReachableV VerificationStore.new
  | add (s : VerificationStore) (tx : UnverifiedTransaction) (c v ph : Nat)
      (dp : TransactionQueueDetailsProvider) (t : Nat) :
      ReachableV s → ReachableV (s.add_transaction tx c v ph dp t).2
  | remove (s : VerificationStore) (h : Nat) (f : Nat → Nat) :
      ReachableV s → ReachableV (s.remove_private_transaction h f)

/-- States of a `SigningStore` reachable from `new` by any sequence of store
operations. -/
inductive ReachableS : SigningStore → Prop where
  | new : ReachableS SigningStore.new
  | add (s : SigningStore) (ph : Nat) (tx : SignedTransaction)
      (vs : List Nat) (st : List Nat) :
      ReachableS s → ReachableS (s.add_transaction ph tx vs st).2
  | remove (s : SigningStore) (ph : Nat) : ReachableS s → ReachableS (s.remove ph).2
  | sign (s : SigningStore) (ph sg : Nat) : ReachableS s → ReachableS (s.add_signature ph sg).2

/-! ### Association-list map lemmas -/

theorem mapGet_nil {α : Type} (k : Nat) : mapGet ([] : List (Nat × α)) k = none :=
  rfl

theorem mapGet_cons {α : Type} (p : Nat × α) (m : List (Nat × α)) (k : Nat) :
    mapGet (p :: m) k = if p.1 = k then some p.2 else mapGet m k := by
  by_cases hp : p.1 = k
  · rw [if_pos hp]
    unfold mapGet
    rw [List.find?_cons_of_pos _ (by simpa using hp)]
    rfl
  · rw [if_neg hp]
    unfold mapGet
    rw [List.find?_cons_of_neg _ (by simpa using hp)]

theorem mapRemove_cons {α : Type} (p : Nat × α) (m : List (Nat × α)) (k : Nat) :
    mapRemove (p :: m) k = if p.1 = k then mapRemove m k else p :: mapRemove m k := by
  by_cases hp : p.1 = k <;> simp [mapRemove, List.filter_cons, hp]

theorem mapUpdate_cons {α : Type} (p : Nat × α) (m : List (Nat × α)) (k : Nat) (v : α) :
    mapUpdate (p :: m) k v = (if p.1 = k then (k, v) else p) :: mapUpdate m k v := by
  by_cases hp : p.1 = k <;> simp [mapUpdate, hp]

theorem mapGet_mapRemove_self {α : Type} (m : List (Nat × α)) (k : Nat) :
    mapGet (mapRemove m k) k = none := by
  induction m with
  | nil => rfl
  | cons p m ih =>
    rw [mapRemove_cons]
    by_cases hp : p.1 = k
    · rw [if_pos hp]; exact ih
    · rw [if_neg hp, mapGet_cons, if_neg hp]; exact ih

theorem mapGet_mapRemove_ne {α : Type} (m : List (Nat × α)) (k k' : Nat) (h : k' ≠ k) :
    mapGet (mapRemove m k) k' = mapGet m k' := by
  induction m with
  | nil => rfl
  | cons p m ih =>
    rw [mapRemove_cons, mapGet_cons]
    by_cases hp : p.1 = k
    · rw [if_pos hp, if_neg (by omega), ih]
    · rw [if_neg hp, mapGet_cons]
      by_cases hp' : p.1 = k'
      · rw [if_pos hp', if_pos hp']
      · rw [if_neg hp', if_neg hp', ih]

theorem mapGet_mapInsert_self {α : Type} (m : List (Nat × α)) (k : Nat) (v : α) :
    mapGet (mapInsert m k v) k = some v := by
  rw [mapInsert, mapGet_cons, if_pos rfl]

theorem mapGet_mapInsert_ne {α : Type} (m : List (Nat × α)) (k k' : Nat) (v : α) (h : k' ≠ k) :
    mapGet (mapInsert m k v) k' = mapGet m k' := by
  rw [mapInsert, mapGet_cons, if_neg (by omega)]
  exact mapGet_mapRemove_ne m k k' h

theorem mapGet_mapUpdate_self {α : Type} (m : List (Nat × α)) (k : Nat) (v : α) (d : α)
    (hd : mapGet m k = some d) : mapGet (mapUpdate m k v) k = some v := by
  induction m with
  | nil => simp [mapGet_nil] at hd
  | cons p m ih =>
    rw [mapUpdate_cons, mapGet_cons]
    by_cases hp : p.1 = k
    · rw [if_pos hp]
      simp
    · rw [if_neg hp, if_neg hp]
      rw [mapGet_cons, if_neg hp] at hd
      exact ih hd

theorem mapGet_mapUpdate_ne {α : Type} (m : List (Nat × α)) (k k' : Nat) (v : α) (h : k' ≠ k) :
    mapGet (mapUpdate m k v) k' = mapGet m k' := by
  induction m with
  | nil => rfl
  | cons p m ih =>
    rw [mapUpdate_cons, mapGet_cons, mapGet_cons]
    by_cases hp : p.1 = k
    · rw [if_pos hp]
      simp only [if_neg (show ¬ (k : Nat) = k' by omega)]
      rw [if_neg (by omega : ¬ p.1 = k'), ih]
    · rw [if_neg hp]
      by_cases hp' : p.1 = k'
      · rw [if_pos hp', if_pos hp']
      · rw [if_neg hp', if_neg hp', ih]

theorem length_mapRemove_le {α : Type} (m : List (Nat × α)) (k : Nat) :
    (mapRemove m k).length ≤ m.length :=
  List.length_filter_le _ m

theorem length_mapInsert_le {α : Type} (m : List (Nat × α)) (k : Nat) (v : α) :
    (mapInsert m k v).length ≤ m.length + 1 := by
  simpa [mapInsert] using length_mapRemove_le m k

theorem length_mapUpdate {α : Type} (m : List (Nat × α)) (k : Nat) (v : α) :
    (mapUpdate m k v).length = m.length := by
  simp [mapUpdate]

theorem mapRemove_of_fresh {α : Type} (m : List (Nat × α)) (k : Nat)
    (h : ∀ p ∈ m, p.1 ≠ k) : mapRemove m k = m := by
  rw [mapRemove, List.filter_eq_self]
  intro p hp
  simpa using h p hp

theorem mapGet_of_fresh {α : Type} (m : List (Nat × α)) (k : Nat)
    (h : ∀ p ∈ m, p.1 ≠ k) : mapGet m k = none := by
  have hfind : m.find? (fun p => p.1 == k) = none := by
    rw [List.find?_eq_none]
    intro p hp
    simpa using h p hp
  simp [mapGet, hfind]

/-! ### Concrete instances used by the witnesses -/

/-- A details provider whose pool admission always accepts. -/
def dpAccept : TransactionQueueDetailsProvider :=
  { admission := fun _ => none }

/-- A details provider whose pool admission always rejects with pool error 7. -/
def dpReject : TransactionQueueDetailsProvider :=
  { admission := fun _ => some 7 }

/-- A concrete raw transaction that verifies. -/
def tx0 : UnverifiedTransaction :=
  { hash := 0, sender := 0, verifyError := none }

/-- A concrete descriptor. -/
def descW : PrivateTransactionDesc :=
  { private_hash := 0, contract := 0, validator_account := 0 }

/-- A verification store holding `MAX_QUEUE_LEN + 1` descriptors. -/
def bigStore : VerificationStore :=
  { descriptors := (List.range (MAX_QUEUE_LEN + 1)).map (fun i => (i, descW)),
    transactions := TransactionQueue.default }

/-- A verification store holding one descriptor, under the hash of `tx0`. -/
def oneStore : VerificationStore :=
  { descriptors := [(0, descW)], transactions := TransactionQueue.default }

/-- A concrete signed transaction. -/
def stx : SignedTransaction :=
  { hash := 9, sender := 9 }

/-- A concrete signing descriptor, already holding signature 7. -/
def sDescW : PrivateTransactionSigningDesc :=
  { original_transaction := stx, validators := [4], received_signatures := [7], state := [5] }

/-- A signing store with one entry at private hash 1, already holding
signature 7. -/
def sStoreW : SigningStore :=
  { transactions := [(1, sDescW)] }

/-! ### Claims about VerificationStore.add_transaction -/

/-- C3: for every `VerificationStore` state within the capacity bound that
already holds a descriptor for the transaction's hash, `add_transaction` with
that same hash returns `PrivateTransactionAlreadyImported` and leaves the
whole store (in particular the stored descriptor) unchanged. -/
theorem add_transaction_rejects_duplicate (s : VerificationStore)
    (tx : UnverifiedTransaction) (contract validator_account private_hash : Nat)
    (dp : TransactionQueueDetailsProvider) (t : Nat)
    (hcap : s.descriptors.length ≤ MAX_QUEUE_LEN)
    (hdup : (mapGet s.descriptors tx.hash).isSome) :
    s.add_transaction tx contract validator_account private_hash dp t =
      (Except.error (Error.Private PrivateTransactionError.PrivateTransactionAlreadyImported), s) := by
  unfold VerificationStore.add_transaction
  rw [if_neg (by omega), if_pos hdup]

theorem add_transaction_rejects_duplicate_witness :
    oneStore.add_transaction tx0 1 2 3 dpAccept 0 =
      (Except.error (Error.Private PrivateTransactionError.PrivateTransactionAlreadyImported),
        oneStore) :=
  add_transaction_rejects_duplicate oneStore tx0 1 2 3 dpAccept 0 (by decide) (by decide)

/-- C4: a `VerificationStore` holding exactly `MAX_QUEUE_LEN + 1` descriptors
rejects the next `add_transaction` with `QueueIsFull`, leaving the store (so
its descriptor count) unchanged; and at sizes of `MAX_QUEUE_LEN` or below the
call never fails with `QueueIsFull` (the boundary is strictly-greater). -/
theorem add_transaction_queue_full_boundary (s : VerificationStore)
    (tx : UnverifiedTransaction) (contract validator_account private_hash : Nat)
    (dp : TransactionQueueDetailsProvider) (t : Nat) :
    (s.descriptors.length = MAX_QUEUE_LEN + 1 →
      s.add_transaction tx contract validator_account private_hash dp t =
        (Except.error (Error.Private PrivateTransactionError.QueueIsFull), s))
  ∧ (s.descriptors.length ≤ MAX_QUEUE_LEN →
      (s.add_transaction tx contract validator_account private_hash dp t).1 ≠
        Except.error (Error.Private PrivateTransactionError.QueueIsFull)) := by
  constructor
  · intro hlen
    unfold VerificationStore.add_transaction
    rw [if_pos (by omega)]
  · intro hlen
    unfold VerificationStore.add_transaction
    rw [if_neg (by omega)]
    by_cases hdup : (mapGet s.descriptors tx.hash).isSome
    · rw [if_pos hdup]
      simp
    · rw [if_neg hdup]
      cases hv : tx.verifyError with
      | some code => simp [SignedTransaction.new, hv]
      | none =>
        simp only [SignedTransaction.new, hv]
        cases hadmit : dp.admission { hash := tx.hash, sender := tx.sender } with
        | some code => simp [TransactionQueue.add, hadmit]
        | none => simp [TransactionQueue.add, hadmit]

theorem add_transaction_queue_full_boundary_witness :
    bigStore.add_transaction tx0 1 2 3 dpAccept 0 =
      (Except.error (Error.Private PrivateTransactionError.QueueIsFull), bigStore)
  ∧ (VerificationStore.new.add_transaction tx0 1 2 3 dpAccept 0).1 ≠
      Except.error (Error.Private PrivateTransactionError.QueueIsFull) :=
  ⟨(add_transaction_queue_full_boundary bigStore tx0 1 2 3 dpAccept 0).1
      (by simp [bigStore]),
   (add_transaction_queue_full_boundary VerificationStore.new tx0 1 2 3 dpAccept 0).2
      (by decide)⟩

/-- C6: when the underlying pool's `add` rejects the transaction (after the
capacity, duplicate and signature-verification steps let the call reach the
pool), the pool's error is returned unchanged and the store — in particular
the descriptors map — is exactly as it was before the call. -/
theorem add_transaction_propagates_pool_error (s : VerificationStore)
    (tx : UnverifiedTransaction) (contract validator_account private_hash : Nat)
    (dp : TransactionQueueDetailsProvider) (t : Nat) (signed : SignedTransaction) (e : Error)
    (hcap : s.descriptors.length ≤ MAX_QUEUE_LEN)
    (hfresh : mapGet s.descriptors tx.hash = none)
    (hsig : SignedTransaction.new tx = Except.ok signed)
    (hpool : s.transactions.add signed TransactionOrigin.External t none dp = Except.error e) :
    s.add_transaction tx contract validator_account private_hash dp t = (Except.error e, s) := by
  unfold VerificationStore.add_transaction
  rw [if_neg (by omega), if_neg (by simp [hfresh])]
  simp only [hsig]
  simp only [hpool]

theorem add_transaction_propagates_pool_error_witness :
    VerificationStore.new.add_transaction tx0 1 2 3 dpReject 0 =
      (Except.error (Error.Pool 7), VerificationStore.new) :=
  add_transaction_propagates_pool_error VerificationStore.new tx0 1 2 3 dpReject 0
    { hash := 0, sender := 0 } (Error.Pool 7) (by decide) rfl rfl rfl

/-- C7: a successful `add_transaction` stores, under the transaction's hash,
exactly the descriptor supplied at insertion, so an immediate
`private_transaction_descriptor` returns it; and for any store and hash with
no stored descriptor the lookup fails with `PrivateTransactionNotFound`. -/
theorem add_transaction_descriptor_roundtrip (s : VerificationStore)
    (tx : UnverifiedTransaction) (contract validator_account private_hash : Nat)
    (dp : TransactionQueueDetailsProvider) (t : Nat) (s' : VerificationStore)
    (hok : s.add_transaction tx contract validator_account private_hash dp t =
      (Except.ok (), s')) :
    s'.private_transaction_descriptor tx.hash =
      Except.ok { private_hash := private_hash, contract := contract,
                  validator_account := validator_account }
  ∧ ∀ (s₀ : VerificationStore) (k : Nat), mapGet s₀.descriptors k = none →
      s₀.private_transaction_descriptor k =
        Except.error (Error.Private PrivateTransactionError.PrivateTransactionNotFound) := by
  constructor
  · unfold VerificationStore.add_transaction at hok
    split at hok
    · simp at hok
    · split at hok
      · simp at hok
      · split at hok
        · simp at hok
        · split at hok
          · have hs' := congrArg Prod.snd hok
            simp only at hs'
            subst hs'
            simp [VerificationStore.private_transaction_descriptor, mapGet_mapInsert_self]
          · simp at hok
  · intro s₀ k hk
    simp [VerificationStore.private_transaction_descriptor, hk]

theorem add_transaction_descriptor_roundtrip_witness :
    ((VerificationStore.new.add_transaction tx0 1 2 3 dpAccept 0).2).private_transaction_descriptor
        tx0.hash =
      Except.ok { private_hash := 3, contract := 1, validator_account := 2 } :=
  (add_transaction_descriptor_roundtrip VerificationStore.new tx0 1 2 3 dpAccept 0 _ rfl).1

/-- C8: `remove_private_transaction` never fails (it is a total function),
unconditionally deletes the descriptor (a no-op when absent), records a
removal instruction to the pool tagged `Invalid`, and makes a subsequent
`private_transaction_descriptor` fail with `PrivateTransactionNotFound` —
for any hash, previously present or absent. -/
theorem remove_private_transaction_spec (s : VerificationStore) (h : Nat) (f : Nat → Nat) :
    mapGet (s.remove_private_transaction h f).descriptors h = none
  ∧ (s.remove_private_transaction h f).private_transaction_descriptor h =
      Except.error (Error.Private PrivateTransactionError.PrivateTransactionNotFound)
  ∧ (s.remove_private_transaction h f).transactions.removals =
      s.transactions.removals ++ [(h, RemovalReason.Invalid)] := by
  refine ⟨mapGet_mapRemove_self s.descriptors h, ?_, rfl⟩
  simp [VerificationStore.private_transaction_descriptor,
    VerificationStore.remove_private_transaction, mapGet_mapRemove_self]

/-! ### Claims about SigningStore -/

/-- C9: within the capacity bound, `SigningStore.add_transaction` always
succeeds and stores an entry with an empty signature sequence; insertion is
unconditional by key, so an existing entry for the same private hash is
silently replaced (signature progress discarded). -/
theorem signing_add_transaction_overwrites (s : SigningStore) (ph : Nat)
    (tx : SignedTransaction) (vs st : List Nat)
    (hcap : s.transactions.length ≤ MAX_QUEUE_LEN) :
    s.add_transaction ph tx vs st =
      (Except.ok (),
        SigningStore.mk (mapInsert s.transactions ph
          (PrivateTransactionSigningDesc.mk tx vs [] st)))
  ∧ (s.add_transaction ph tx vs st).2.get ph =
      some (PrivateTransactionSigningDesc.mk tx vs [] st) := by
  have h1 : s.add_transaction ph tx vs st =
      (Except.ok (),
        SigningStore.mk (mapInsert s.transactions ph
          (PrivateTransactionSigningDesc.mk tx vs [] st))) := by
    unfold SigningStore.add_transaction
    rw [if_neg (by omega)]
  refine ⟨h1, ?_⟩
  rw [h1]
  exact mapGet_mapInsert_self s.transactions ph _

theorem signing_add_transaction_overwrites_witness :
    (sStoreW.add_transaction 1 stx [2] [3]).2.get 1 =
      some (PrivateTransactionSigningDesc.mk stx [2] [] [3]) :=
  (signing_add_transaction_overwrites sStoreW 1 stx [2] [3] (by decide)).2

/-- Characterization of `add_signature` when the entry is present: the call
succeeds and the entry is updated in place, its signature list extended
exactly when the signature is new. -/
theorem add_signature_of_found (s : SigningStore) (ph sg : Nat)
    (d : PrivateTransactionSigningDesc) (hd : mapGet s.transactions ph = some d) :
    s.add_signature ph sg =
      (Except.ok (),
        SigningStore.mk (mapUpdate s.transactions ph
          (if d.received_signatures.contains sg then d
           else { d with received_signatures := d.received_signatures ++ [sg] }))) := by
  unfold SigningStore.add_signature
  rw [hd]

/-- C10: a successful `add_signature` modifies only the addressed entry's
`received_signatures` field — its other fields are unchanged — and leaves
every entry under any other key unchanged. -/
theorem add_signature_frame (s : SigningStore) (ph sg : Nat)
    (d : PrivateTransactionSigningDesc) (hd : mapGet s.transactions ph = some d) :
    ((s.add_signature ph sg).1 = Except.ok ()
  ∧ ∀ d', mapGet (s.add_signature ph sg).2.transactions ph = some d' →
        d'.original_transaction = d.original_transaction ∧ d'.validators = d.validators
      ∧ d'.state = d.state)
  ∧ ∀ k, k ≠ ph → mapGet (s.add_signature ph sg).2.transactions k = mapGet s.transactions k := by
  rw [add_signature_of_found s ph sg d hd]
  refine ⟨⟨rfl, ?_⟩, ?_⟩
  · intro d' hd'
    rw [mapGet_mapUpdate_self s.transactions ph _ d hd] at hd'
    have hd'' := Option.some.inj hd'
    subst hd''
    by_cases hc : d.received_signatures.contains sg
    · rw [if_pos hc]
      exact ⟨rfl, rfl, rfl⟩
    · rw [if_neg hc]
      exact ⟨rfl, rfl, rfl⟩
  · intro k hk
    exact mapGet_mapUpdate_ne s.transactions ph k _ hk

theorem add_signature_frame_witness :
    mapGet (sStoreW.add_signature 1 8).2.transactions 2 = mapGet sStoreW.transactions 2 :=
  (add_signature_frame sStoreW 1 8 sDescW rfl).2 2 (by decide)

/-! ### C1: capacity of reachable stores -/

/-- Case analysis of the effect of `add_transaction` on the descriptors map:
either the call leaves it unchanged, or it inserts the new descriptor — and
insertion only happens when the size check passed. -/
theorem add_transaction_descriptors_cases (s : VerificationStore)
    (tx : UnverifiedTransaction) (c v ph : Nat)
    (dp : TransactionQueueDetailsProvider) (t : Nat) :
    (s.add_transaction tx c v ph dp t).2.descriptors = s.descriptors
  ∨ ((s.add_transaction tx c v ph dp t).2.descriptors =
        mapInsert s.descriptors tx.hash (PrivateTransactionDesc.mk ph c v)
      ∧ s.descriptors.length ≤ MAX_QUEUE_LEN) := by
  unfold VerificationStore.add_transaction
  split
  next => exact Or.inl rfl
  next h1 =>
    split
    next => exact Or.inl rfl
    next h2 =>
      split
      next => exact Or.inl rfl
      next st hst =>
        split
        next q hq => exact Or.inr ⟨rfl, by omega⟩
        next e he => exact Or.inl rfl

/-- C1 (amended): every state reachable by any sequence of store operations
holds at most `MAX_QUEUE_LEN + 1` entries — in `VerificationStore.descriptors`
as well as in `SigningStore.transactions`.  (The bound `MAX_QUEUE_LEN` itself
is exceeded: see the counterexample.) -/
theorem reachable_stores_size_bound :
    (∀ s : VerificationStore, ReachableV s → s.descriptors.length ≤ MAX_QUEUE_LEN + 1)
  ∧ (∀ s : SigningStore, ReachableS s → s.transactions.length ≤ MAX_QUEUE_LEN + 1) := by
  constructor
  · intro s hs
    induction hs with
    | new => simp [VerificationStore.new]
    | add s tx c v ph dp t hs ih =>
      rcases add_transaction_descriptors_cases s tx c v ph dp t with h | ⟨h, hlen⟩
      · rw [h]; exact ih
      · rw [h]
        have := length_mapInsert_le s.descriptors tx.hash (PrivateTransactionDesc.mk ph c v)
        omega
    | remove s h f hs ih =>
      exact le_trans (length_mapRemove_le s.descriptors h) ih
  · intro s hs
    induction hs with
    | new => simp [SigningStore.new]
    | add s ph tx vs st hs ih =>
      by_cases h1 : s.transactions.length > MAX_QUEUE_LEN
      · have heq : (s.add_transaction ph tx vs st).2 = s := by
          unfold SigningStore.add_transaction
          rw [if_pos h1]
        rw [heq]; exact ih
      · have heq : (s.add_transaction ph tx vs st).2.transactions =
            mapInsert s.transactions ph (PrivateTransactionSigningDesc.mk tx vs [] st) := by
          unfold SigningStore.add_transaction
          rw [if_neg h1]
        rw [heq]
        have := length_mapInsert_le s.transactions ph
          (PrivateTransactionSigningDesc.mk tx vs [] st)
        omega
    | remove s ph hs ih =>
      exact le_trans (length_mapRemove_le s.transactions ph) ih
    | sign s ph sg hs ih =>
      cases hg : mapGet s.transactions ph with
      | none =>
        have heq : (s.add_signature ph sg).2 = s := by
          unfold SigningStore.add_signature
          rw [hg]
        rw [heq]; exact ih
      | some d =>
        rw [add_signature_of_found s ph sg d hg]
        simpa [length_mapUpdate] using ih

theorem reachable_stores_size_bound_witness :
    VerificationStore.new.descriptors.length ≤ MAX_QUEUE_LEN + 1
  ∧ SigningStore.new.transactions.length ≤ MAX_QUEUE_LEN + 1 :=
  ⟨reachable_stores_size_bound.1 VerificationStore.new ReachableV.new,
   reachable_stores_size_bound.2 SigningStore.new ReachableS.new⟩

/-- The store reached from `new` by admitting `n` transactions with the fresh
hashes `0, 1, ..., n-1` through `add_transaction` (always-accepting pool). -/
def fillV : Nat → VerificationStore
  | 0 => VerificationStore.new
  | n + 1 =>
      ((fillV n).add_transaction (UnverifiedTransaction.mk n n none) 0 0 0 dpAccept 0).2

theorem fillV_reachable (n : Nat) : ReachableV (fillV n) := by
  induction n with
  | zero => exact ReachableV.new
  | succ n ih => exact ReachableV.add (fillV n) _ 0 0 0 dpAccept 0 ih

theorem fillV_spec (n : Nat) (hn : n ≤ MAX_QUEUE_LEN + 1) :
    (fillV n).descriptors.length = n ∧ ∀ p ∈ (fillV n).descriptors, p.1 < n := by
  induction n with
  | zero =>
    refine ⟨rfl, ?_⟩
    intro p hp
    simp [fillV, VerificationStore.new] at hp
  | succ n ih =>
    obtain ⟨hlen, hkeys⟩ := ih (by omega)
    have hfresh : mapGet (fillV n).descriptors n = none :=
      mapGet_of_fresh _ n (fun p hp => by have := hkeys p hp; omega)
    have hstep : (fillV (n + 1)).descriptors =
        (n, PrivateTransactionDesc.mk 0 0 0) :: (fillV n).descriptors := by
      show (((fillV n).add_transaction (UnverifiedTransaction.mk n n none)
        0 0 0 dpAccept 0).2).descriptors = _
      unfold VerificationStore.add_transaction
      rw [if_neg (by omega), if_neg (by simp [hfresh])]
      simp only [SignedTransaction.new, TransactionQueue.add, dpAccept]
      show mapInsert (fillV n).descriptors n (PrivateTransactionDesc.mk 0 0 0) = _
      rw [mapInsert, mapRemove_of_fresh _ n (fun p hp => by have := hkeys p hp; omega)]
    constructor
    · rw [hstep, List.length_cons, hlen]
    · intro p hp
      rw [hstep, List.mem_cons] at hp
      rcases hp with rfl | hp
      · omega
      · have := hkeys p hp; omega

/-- C1, as stated, is false: the capacity check rejects only when the current
size strictly exceeds `MAX_QUEUE_LEN`, so the reachable store `fillV
(MAX_QUEUE_LEN + 1)` — built by `MAX_QUEUE_LEN + 1` successful admissions —
holds `MAX_QUEUE_LEN + 1 = 8313` descriptors, exceeding the claimed bound. -/
theorem reachable_stores_size_bound_counterexample :
    ¬ ((∀ s : VerificationStore, ReachableV s → s.descriptors.length ≤ MAX_QUEUE_LEN)
     ∧ (∀ s : SigningStore, ReachableS s → s.transactions.length ≤ MAX_QUEUE_LEN)) := by
  intro hclaim
  have h1 := hclaim.1 (fillV (MAX_QUEUE_LEN + 1)) (fillV_reachable (MAX_QUEUE_LEN + 1))
  have h2 := (fillV_spec (MAX_QUEUE_LEN + 1) (by omega)).1
  omega

/-! ### C2: ready_transactions -/

theorem senderLE_trans (a b c : SignedTransaction) :
    senderLE a b → senderLE b c → senderLE a c := by
  simp only [senderLE, decide_eq_true_eq]
  omega

theorem senderLE_total (a b : SignedTransaction) : senderLE a b || senderLE b a := by
  simp only [senderLE, Bool.or_eq_true, decide_eq_true_eq]
  omega

theorem dedupBySenderAux_sublist (a : SignedTransaction) (l : List SignedTransaction) :
    List.Sublist (dedupBySenderAux a l) (a :: l) := by
  induction l generalizing a with
  | nil => simp [dedupBySenderAux]
  | cons b rest ih =>
    unfold dedupBySenderAux
    by_cases hab : a.sender == b.sender
    · rw [if_pos hab]
      exact (ih a).trans (List.cons_sublist_cons.mpr (List.sublist_cons_self b rest))
    · rw [if_neg hab]
      exact List.cons_sublist_cons.mpr (ih b)

theorem dedupBySenderAux_pairwise (a : SignedTransaction) (l : List SignedTransaction)
    (h : (a :: l).Pairwise (fun x y => x.sender ≤ y.sender)) :
    (dedupBySenderAux a l).Pairwise (fun x y => x.sender < y.sender) := by
  induction l generalizing a with
  | nil => simp [dedupBySenderAux]
  | cons b rest ih =>
    rw [List.pairwise_cons] at h
    obtain ⟨ha, hbr⟩ := h
    unfold dedupBySenderAux
    by_cases hab : a.sender == b.sender
    · rw [if_pos hab]
      apply ih a
      rw [List.pairwise_cons]
      exact ⟨fun y hy => ha y (List.mem_cons_of_mem b hy), (List.pairwise_cons.mp hbr).2⟩
    · rw [if_neg hab]
      rw [List.pairwise_cons]
      have hab' : a.sender < b.sender := by
        have := ha b (List.mem_cons_self b rest)
        simp only [beq_iff_eq] at hab
        omega
      constructor
      · intro t ht
        have htm : t ∈ b :: rest := (dedupBySenderAux_sublist b rest).subset ht
        rcases List.mem_cons.mp htm with rfl | htr
        · exact hab'
        · have := (List.pairwise_cons.mp hbr).1 t htr
          omega
      · exact ih b hbr

theorem dedupBySenderAux_find (a : SignedTransaction) (l : List SignedTransaction)
    (h : (a :: l).Pairwise (fun x y => x.sender ≤ y.sender))
    (t : SignedTransaction) (ht : t ∈ dedupBySenderAux a l) :
    (a :: l).find? (fun u => u.sender == t.sender) = some t := by
  induction l generalizing a with
  | nil =>
    simp only [dedupBySenderAux, List.mem_singleton] at ht
    subst ht
    exact List.find?_cons_of_pos _ (by simp)
  | cons b rest ih =>
    rw [List.pairwise_cons] at h
    obtain ⟨ha, hbr⟩ := h
    unfold dedupBySenderAux at ht
    by_cases hab : a.sender == b.sender
    · rw [if_pos hab] at ht
      have hpair : (a :: rest).Pairwise (fun x y => x.sender ≤ y.sender) := by
        rw [List.pairwise_cons]
        exact ⟨fun y hy => ha y (List.mem_cons_of_mem b hy), (List.pairwise_cons.mp hbr).2⟩
      have hfind := ih a hpair ht
      by_cases hat : (a.sender == t.sender) = true
      · have hfa : (a :: rest).find? (fun u => u.sender == t.sender) = some a :=
          List.find?_cons_of_pos (p := fun u => u.sender == t.sender) rest hat
        rw [hfind] at hfa
        have hta := Option.some.inj hfa
        subst hta
        exact List.find?_cons_of_pos (b :: rest) hat
      · rw [List.find?_cons_of_neg (p := fun u => u.sender == t.sender) rest hat] at hfind
        rw [List.find?_cons_of_neg (p := fun u => u.sender == t.sender) (b :: rest) hat]
        have hbt : ¬ (b.sender == t.sender) = true := by
          simp only [beq_iff_eq] at hab hat ⊢
          omega
        rw [List.find?_cons_of_neg (p := fun u => u.sender == t.sender) rest hbt]
        exact hfind
    · rw [if_neg hab] at ht
      rcases List.mem_cons.mp ht with rfl | ht'
      · exact List.find?_cons_of_pos (b :: rest) (by simp)
      · have hfind := ih b hbr ht'
        have hab' : a.sender < b.sender := by
          have := ha b (List.mem_cons_self b rest)
          simp only [beq_iff_eq] at hab
          omega
        have hat : ¬ (a.sender == t.sender) = true := by
          have htm : t ∈ b :: rest := (dedupBySenderAux_sublist b rest).subset ht'
          rcases List.mem_cons.mp htm with rfl | htr
          · simp only [beq_iff_eq]; omega
          · have := (List.pairwise_cons.mp hbr).1 t htr
            simp only [beq_iff_eq]; omega
        rw [List.find?_cons_of_neg (p := fun u => u.sender == t.sender) (b :: rest) hat]
        exact hfind

theorem dedupBySenderAux_head (a : SignedTransaction) (l : List SignedTransaction) :
    ∃ t ∈ dedupBySenderAux a l, t.sender = a.sender := by
  induction l generalizing a with
  | nil => exact ⟨a, by simp [dedupBySenderAux]⟩
  | cons b rest ih =>
    unfold dedupBySenderAux
    by_cases hab : a.sender == b.sender
    · rw [if_pos hab]
      exact ih a
    · rw [if_neg hab]
      exact ⟨a, List.mem_cons_self a _, rfl⟩

theorem dedupBySenderAux_covers (a : SignedTransaction) (l : List SignedTransaction)
    (u : SignedTransaction) (hu : u ∈ a :: l) :
    ∃ t ∈ dedupBySenderAux a l, t.sender = u.sender := by
  induction l generalizing a with
  | nil =>
    rcases List.mem_cons.mp hu with rfl | h
    · exact dedupBySenderAux_head u []
    · simp at h
  | cons b rest ih =>
    unfold dedupBySenderAux
    by_cases hab : a.sender == b.sender
    · rw [if_pos hab]
      rcases List.mem_cons.mp hu with rfl | hu'
      · exact dedupBySenderAux_head u rest
      · rcases List.mem_cons.mp hu' with rfl | hu''
        · obtain ⟨t, htmem, hts⟩ := dedupBySenderAux_head a rest
          refine ⟨t, htmem, ?_⟩
          simp only [beq_iff_eq] at hab
          omega
        · exact ih a (List.mem_cons_of_mem a hu'')
    · rw [if_neg hab]
      rcases List.mem_cons.mp hu with rfl | hu'
      · exact ⟨u, List.mem_cons_self u _, rfl⟩
      · obtain ⟨t, htmem, hts⟩ := ih b hu'
        exact ⟨t, List.mem_cons_of_mem a htmem, hts⟩

theorem dedupBySender_sublist (l : List SignedTransaction) :
    List.Sublist (dedupBySender l) l := by
  cases l with
  | nil => simp [dedupBySender]
  | cons a rest => exact dedupBySenderAux_sublist a rest

theorem dedupBySender_pairwise (l : List SignedTransaction)
    (h : l.Pairwise (fun x y => x.sender ≤ y.sender)) :
    (dedupBySender l).Pairwise (fun x y => x.sender < y.sender) := by
  cases l with
  | nil => simp [dedupBySender]
  | cons a rest => exact dedupBySenderAux_pairwise a rest h

theorem dedupBySender_find (l : List SignedTransaction)
    (h : l.Pairwise (fun x y => x.sender ≤ y.sender))
    (t : SignedTransaction) (ht : t ∈ dedupBySender l) :
    l.find? (fun u => u.sender == t.sender) = some t := by
  cases l with
  | nil => simp [dedupBySender] at ht
  | cons a rest => exact dedupBySenderAux_find a rest h t ht

theorem dedupBySender_covers (l : List SignedTransaction)
    (u : SignedTransaction) (hu : u ∈ l) :
    ∃ t ∈ dedupBySender l, t.sender = u.sender := by
  cases l with
  | nil => simp at hu
  | cons a rest => exact dedupBySenderAux_covers a rest u hu

theorem find?_eq_head?_filter {α : Type} (p : α → Bool) (l : List α) :
    l.find? p = (l.filter p).head? := by
  induction l with
  | nil => rfl
  | cons a l ih =>
    by_cases ha : p a
    · rw [List.find?_cons_of_pos _ ha, List.filter_cons_of_pos ha]
      rfl
    · rw [List.find?_cons_of_neg _ ha, List.filter_cons_of_neg ha]
      exact ih

theorem mergeSort_sorted_sender (ts : List SignedTransaction) :
    (ts.mergeSort senderLE).Pairwise (fun x y => x.sender ≤ y.sender) := by
  have h := List.sorted_mergeSort senderLE_trans senderLE_total ts
  exact h.imp (fun hle => by simpa [senderLE] using hle)

/-- Stability of the sort, specialized: the elements with a given sender occur
in the sorted list exactly as they occur in the input. -/
theorem mergeSort_filter_sender (ts : List SignedTransaction) (x : Nat) :
    (ts.mergeSort senderLE).filter (fun u => u.sender == x) =
      ts.filter (fun u => u.sender == x) := by
  have hsub : List.Sublist (ts.filter (fun u => u.sender == x)) (ts.mergeSort senderLE) := by
    apply List.sublist_mergeSort senderLE_trans senderLE_total
    · apply List.pairwise_of_forall_mem_list
      intro a ha b hb
      have ha' := (List.mem_filter.mp ha).2
      have hb' := (List.mem_filter.mp hb).2
      simp only [beq_iff_eq] at ha' hb'
      simp only [senderLE, decide_eq_true_eq]
      omega
    · exact List.filter_sublist ts
  have h2 := hsub.filter (fun u => u.sender == x)
  have h3 : (ts.filter (fun u => u.sender == x)).filter (fun u => u.sender == x) =
      ts.filter (fun u => u.sender == x) := by
    rw [List.filter_eq_self]
    intro a ha
    exact (List.mem_filter.mp ha).2
  rw [h3] at h2
  have hperm : List.Perm ((ts.mergeSort senderLE).filter (fun u => u.sender == x))
      (ts.filter (fun u => u.sender == x)) :=
    (List.mergeSort_perm ts senderLE).filter _
  exact (h2.eq_of_length hperm.length_eq.symm).symm

/-- C2: with `ts` the pool's top candidates, `ready_transactions` returns a
list in which (i) every element is one of the candidates and is its sender's
foremost candidate per the pool's own ranking before the sort (the first
element of `ts` with that sender), (ii) senders are pairwise distinct, (iii)
every candidate's sender is represented, and (iv) the length is exactly the
number of distinct senders among the candidates.  The function is pure by
construction — it takes the store and returns only the list, mutating no
store state. -/
theorem ready_transactions_spec (s : VerificationStore) :
    (∀ t ∈ s.ready_transactions,
        t ∈ s.transactions.top_transactions
      ∧ (s.transactions.top_transactions).find? (fun u => u.sender == t.sender) = some t)
  ∧ ((s.ready_transactions).map SignedTransaction.sender).Nodup
  ∧ (∀ u ∈ s.transactions.top_transactions,
        ∃ t ∈ s.ready_transactions, t.sender = u.sender)
  ∧ (s.ready_transactions).length =
      ((s.transactions.top_transactions).map SignedTransaction.sender).dedup.length := by
  have hready : s.ready_transactions =
      dedupBySender ((s.transactions.top_transactions).mergeSort senderLE) := rfl
  have hsorted := mergeSort_sorted_sender s.transactions.top_transactions
  have hnodup : ((s.ready_transactions).map SignedTransaction.sender).Nodup := by
    rw [hready]
    have hp := dedupBySender_pairwise _ hsorted
    exact hp.map SignedTransaction.sender (fun a b hlt => by omega)
  have hmem : ∀ t ∈ s.ready_transactions, t ∈ s.transactions.top_transactions := by
    intro t ht
    rw [hready] at ht
    exact List.mem_mergeSort.mp ((dedupBySender_sublist _).subset ht)
  have hcov : ∀ u ∈ s.transactions.top_transactions,
      ∃ t ∈ s.ready_transactions, t.sender = u.sender := by
    intro u hu
    rw [hready]
    exact dedupBySender_covers _ u (List.mem_mergeSort.mpr hu)
  refine ⟨?_, hnodup, hcov, ?_⟩
  · intro t ht
    refine ⟨hmem t ht, ?_⟩
    rw [hready] at ht
    have hfind := dedupBySender_find _ hsorted t ht
    calc (s.transactions.top_transactions).find? (fun u => u.sender == t.sender)
        = ((s.transactions.top_transactions).filter (fun u => u.sender == t.sender)).head? :=
          find?_eq_head?_filter _ _
      _ = (((s.transactions.top_transactions).mergeSort senderLE).filter
            (fun u => u.sender == t.sender)).head? := by
          rw [mergeSort_filter_sender]
      _ = ((s.transactions.top_transactions).mergeSort senderLE).find?
            (fun u => u.sender == t.sender) := (find?_eq_head?_filter _ _).symm
      _ = some t := hfind
  · have hnodupD : (((s.transactions.top_transactions).map SignedTransaction.sender).dedup).Nodup :=
      List.nodup_dedup _
    have hiff : ∀ x, x ∈ (s.ready_transactions).map SignedTransaction.sender ↔
        x ∈ ((s.transactions.top_transactions).map SignedTransaction.sender).dedup := by
      intro x
      rw [List.mem_dedup, List.mem_map, List.mem_map]
      constructor
      · rintro ⟨t, ht, rfl⟩
        exact ⟨t, hmem t ht, rfl⟩
      · rintro ⟨u, hu, rfl⟩
        obtain ⟨t, htR, hts⟩ := hcov u hu
        exact ⟨t, htR, hts⟩
    have hperm := (List.perm_ext_iff_of_nodup hnodup hnodupD).mpr hiff
    calc (s.ready_transactions).length
        = ((s.ready_transactions).map SignedTransaction.sender).length :=
          (List.length_map _ _).symm
      _ = (((s.transactions.top_transactions).map SignedTransaction.sender).dedup).length :=
          hperm.length_eq

/-- Pool candidates for the C2 witness: two transactions of sender 5 ranked
before one of sender 7. -/
def readyTxs : List SignedTransaction :=
  [SignedTransaction.mk 1 5, SignedTransaction.mk 2 5, SignedTransaction.mk 3 7]

/-- A verification store whose pool holds `readyTxs`. -/
def readyStoreW : VerificationStore :=
  { descriptors := [], transactions := { txs := readyTxs, removals := [] } }

theorem ready_transactions_spec_witness :
    ((readyStoreW.ready_transactions).map SignedTransaction.sender).Nodup
  ∧ ∃ t ∈ readyStoreW.ready_transactions, t.sender = 5 :=
  ⟨(ready_transactions_spec readyStoreW).2.1,
   (ready_transactions_spec readyStoreW).2.2.1 (SignedTransaction.mk 1 5) (by decide)⟩

/-! ### C5: add_signature accumulation -/

theorem mapGet_mem {α : Type} (m : List (Nat × α)) (k : Nat) (d : α)
    (h : mapGet m k = some d) : (k, d) ∈ m := by
  unfold mapGet at h
  cases hf : m.find? (fun p => p.1 == k) with
  | none => rw [hf] at h; simp at h
  | some q =>
    rw [hf] at h
    simp only [Option.map_some', Option.some.injEq] at h
    have hq := List.mem_of_find?_eq_some hf
    have hk := List.find?_some hf
    simp only [beq_iff_eq] at hk
    have hqe : q = (k, d) := by
      cases q
      simp only [Prod.mk.injEq]
      exact ⟨hk, h⟩
    rw [← hqe]
    exact hq

/-- Invariant: in every reachable signing store, each entry's collected
signatures are pairwise distinct (signatures are appended only when absent). -/
theorem reachableS_signatures_nodup (s : SigningStore) (hs : ReachableS s) :
    ∀ p ∈ s.transactions, p.2.received_signatures.Nodup := by
  induction hs with
  | new =>
    intro p hp
    simp [SigningStore.new] at hp
  | add s ph tx vs st hs ih =>
    intro p hp
    by_cases h1 : s.transactions.length > MAX_QUEUE_LEN
    · have heq : (s.add_transaction ph tx vs st).2 = s := by
        unfold SigningStore.add_transaction
        rw [if_pos h1]
      rw [heq] at hp
      exact ih p hp
    · have heq : (s.add_transaction ph tx vs st).2.transactions =
          mapInsert s.transactions ph (PrivateTransactionSigningDesc.mk tx vs [] st) := by
        unfold SigningStore.add_transaction
        rw [if_neg h1]
      rw [heq] at hp
      rcases List.mem_cons.mp hp with rfl | hp'
      · simp
      · exact ih p (List.mem_of_mem_filter hp')
  | remove s ph hs ih =>
    intro p hp
    exact ih p (List.mem_of_mem_filter hp)
  | sign s ph sg hs ih =>
    intro p hp
    cases hg : mapGet s.transactions ph with
    | none =>
      have heq : (s.add_signature ph sg).2 = s := by
        unfold SigningStore.add_signature
        rw [hg]
      rw [heq] at hp
      exact ih p hp
    | some d =>
      have hdnodup : d.received_signatures.Nodup := ih (ph, d) (mapGet_mem _ _ _ hg)
      rw [add_signature_of_found s ph sg d hg] at hp
      simp only [mapUpdate, List.mem_map] at hp
      obtain ⟨q, hq, rfl⟩ := hp
      by_cases hqk : (q.1 == ph) = true
      · rw [if_pos hqk]
        by_cases hc : d.received_signatures.contains sg
        · rw [if_pos hc]
          exact hdnodup
        · rw [if_neg hc]
          simp only
          rw [List.nodup_append]
          refine ⟨hdnodup, List.nodup_singleton sg, ?_⟩
          intro x hx hx'
          simp only [List.mem_singleton] at hx'
          subst hx'
          exact hc (by simpa [List.elem_iff] using hx)
      · rw [if_neg hqk]
        exact ih q hq

/-- C5: on a reachable signing store, `add_signature` on an absent key fails
with `PrivateTransactionNotFound` leaving the store unchanged; on a present
key, two calls with the same signature leave exactly one occurrence of it,
and two calls with distinct signatures not yet collected append both, in call
order. -/
theorem add_signature_spec (s : SigningStore) (hr : ReachableS s) (ph sg sg' : Nat) :
    (s.get ph = none →
        s.add_signature ph sg =
          (Except.error (Error.Private PrivateTransactionError.PrivateTransactionNotFound), s))
  ∧ ∀ d, s.get ph = some d →
      ((((s.add_signature ph sg).2.add_signature ph sg).2.get ph).map
          (fun e => e.received_signatures.count sg) = some 1)
    ∧ (sg ≠ sg' → sg ∉ d.received_signatures → sg' ∉ d.received_signatures →
        (((s.add_signature ph sg).2.add_signature ph sg').2.get ph).map
            (fun e => e.received_signatures) =
          some (d.received_signatures ++ [sg, sg'])) := by
  constructor
  · intro h
    have h' : mapGet s.transactions ph = none := h
    unfold SigningStore.add_signature
    rw [h']
  · intro d hd
    have hd' : mapGet s.transactions ph = some d := hd
    have hnodup : d.received_signatures.Nodup :=
      reachableS_signatures_nodup s hr (ph, d) (mapGet_mem s.transactions ph d hd')
    constructor
    · by_cases hc : d.received_signatures.contains sg
      · have h1 : (s.add_signature ph sg).2 =
            SigningStore.mk (mapUpdate s.transactions ph d) := by
          rw [add_signature_of_found s ph sg d hd', if_pos hc]
        have hget1 : mapGet (mapUpdate s.transactions ph d) ph = some d :=
          mapGet_mapUpdate_self s.transactions ph d d hd'
        have h2 : ((s.add_signature ph sg).2.add_signature ph sg).2 =
            SigningStore.mk (mapUpdate (mapUpdate s.transactions ph d) ph d) := by
          rw [h1, add_signature_of_found (SigningStore.mk (mapUpdate s.transactions ph d))
            ph sg d hget1, if_pos hc]
        rw [h2]
        have hget2 : mapGet (mapUpdate (mapUpdate s.transactions ph d) ph d) ph = some d :=
          mapGet_mapUpdate_self _ ph d d hget1
        simp only [SigningStore.get, hget2, Option.map_some', Option.some.injEq]
        exact List.count_eq_one_of_mem hnodup (by simpa [List.elem_iff] using hc)
      · have h1 : (s.add_signature ph sg).2 = SigningStore.mk (mapUpdate s.transactions ph
            { d with received_signatures := d.received_signatures ++ [sg] }) := by
          rw [add_signature_of_found s ph sg d hd', if_neg hc]
        have hget1 : mapGet (mapUpdate s.transactions ph
            { d with received_signatures := d.received_signatures ++ [sg] }) ph =
            some { d with received_signatures := d.received_signatures ++ [sg] } :=
          mapGet_mapUpdate_self s.transactions ph _ d hd'
        have hc1 : ({ d with received_signatures := d.received_signatures ++ [sg]
            } : PrivateTransactionSigningDesc).received_signatures.contains sg = true := by
          simp [List.elem_iff]
        have h2 : ((s.add_signature ph sg).2.add_signature ph sg).2 =
            SigningStore.mk (mapUpdate (mapUpdate s.transactions ph
              { d with received_signatures := d.received_signatures ++ [sg] }) ph
              { d with received_signatures := d.received_signatures ++ [sg] }) := by
          rw [h1, add_signature_of_found (SigningStore.mk (mapUpdate s.transactions ph
            { d with received_signatures := d.received_signatures ++ [sg] })) ph sg
            { d with received_signatures := d.received_signatures ++ [sg] } hget1, if_pos hc1]
        rw [h2]
        have hget2 := mapGet_mapUpdate_self (mapUpdate s.transactions ph
            { d with received_signatures := d.received_signatures ++ [sg] }) ph
            { d with received_signatures := d.received_signatures ++ [sg] } _ hget1
        simp only [SigningStore.get, hget2, Option.map_some', Option.some.injEq]
        have hzero : d.received_signatures.count sg = 0 :=
          List.count_eq_zero.mpr (by simpa [List.elem_iff] using hc)
        simp [hzero]
    · intro hne h1 h2
      have hc1 : ¬ d.received_signatures.contains sg = true := by
        simpa [List.elem_iff] using h1
      have hfirst : (s.add_signature ph sg).2 = SigningStore.mk (mapUpdate s.transactions ph
          { d with received_signatures := d.received_signatures ++ [sg] }) := by
        rw [add_signature_of_found s ph sg d hd', if_neg hc1]
      have hget1 : mapGet (mapUpdate s.transactions ph
          { d with received_signatures := d.received_signatures ++ [sg] }) ph =
          some { d with received_signatures := d.received_signatures ++ [sg] } :=
        mapGet_mapUpdate_self s.transactions ph _ d hd'
      have hc2 : ¬ ({ d with received_signatures := d.received_signatures ++ [sg]
          } : PrivateTransactionSigningDesc).received_signatures.contains sg' = true := by
        simp only [List.elem_iff, List.mem_append, List.mem_singleton]
        intro hx
        rcases hx with hx | hx
        · exact h2 hx
        · exact hne hx.symm
      have hsecond : ((s.add_signature ph sg).2.add_signature ph sg').2 =
          SigningStore.mk (mapUpdate (mapUpdate s.transactions ph
            { d with received_signatures := d.received_signatures ++ [sg] }) ph
            { d with received_signatures := (d.received_signatures ++ [sg]) ++ [sg'] }) := by
        rw [hfirst, add_signature_of_found (SigningStore.mk (mapUpdate s.transactions ph
          { d with received_signatures := d.received_signatures ++ [sg] })) ph sg'
          { d with received_signatures := d.received_signatures ++ [sg] } hget1, if_neg hc2]
      rw [hsecond]
      have hget2 := mapGet_mapUpdate_self (mapUpdate s.transactions ph
          { d with received_signatures := d.received_signatures ++ [sg] }) ph
          { d with received_signatures := (d.received_signatures ++ [sg]) ++ [sg'] } _ hget1
      simp only [SigningStore.get, hget2, Option.map_some', Option.some.injEq]
      simp [List.append_assoc]

theorem add_signature_spec_witness :
    ((((SigningStore.new.add_transaction 1 stx [4] [5]).2.add_signature 1 8).2.add_signature
        1 8).2.get 1).map (fun e => e.received_signatures.count 8) = some 1 :=
  ((add_signature_spec (SigningStore.new.add_transaction 1 stx [4] [5]).2
      (ReachableS.add SigningStore.new 1 stx [4] [5] ReachableS.new) 1 8 9).2
    (PrivateTransactionSigningDesc.mk stx [4] [] [5]) rfl).1

end Parity
